import Mathlib

/-!
Verification of `faust/utils/text.py` (fuzzy "did you mean" suggestions and
small string helpers).

Strings are embedded as Lean `String` / `List Char` (Python `str` comparison
is code-point lexicographic, like Lean's), Python floats as exact rationals
(`ℚ`), Python ints as `ℤ` where negative values matter.

The similarity scorer used by the module is `difflib.SequenceMatcher` from
the Python standard library, which is not part of this repository's sources;
it is modelled below from the specification's description of the algorithm
(Ratcliff/Obershelp gestalt matching, ratio `2*M/T`).
-/

namespace FaustText

/-- Modelled from the spec: length of the common prefix of two character
lists, i.e. the length of the matching block starting at a given pair of
positions (`difflib` is not in `src/`; §4.1 describes the algorithm). -/
def extLen : List Char → List Char → Nat
  | a :: as, b :: bs => if a = b then extLen as bs + 1 else 0
  | _, _ => 0

/-- Modelled from the spec: all start-position pairs `(i, j)` scanned when
searching for the longest matching block, in the scan order of
`difflib.SequenceMatcher.find_longest_match` (increasing `i`, then `j`). -/
def matchPairs (la lb : Nat) : List (Nat × Nat) :=
  (List.range la).flatMap fun i => (List.range lb).map fun j => (i, j)

/-- One scan step of the longest-block search: keep the new block exactly
when it is strictly longer than the best block so far. -/
def flmStep (a b : List Char) (best : Nat × Nat × Nat) (p : Nat × Nat) :
    Nat × Nat × Nat :=
  if best.2.2 < extLen (a.drop p.1) (b.drop p.2) then
    (p.1, p.2, extLen (a.drop p.1) (b.drop p.2))
  else best

/-- Modelled from the spec: the longest contiguous matching block between
`a` and `b` as `(i, j, size)`; among blocks of maximal size the one with
the least `(i, j)` is kept, the tie-break of
`difflib.SequenceMatcher.find_longest_match` (no junk heuristics: the spec
describes the pure Ratcliff/Obershelp search). -/
def findLongestMatch (a b : List Char) : Nat × Nat × Nat :=
  (matchPairs a.length b.length).foldl (flmStep a b) (0, 0, 0)

/-- Modelled from the spec: total size `M` of all matching blocks — find the
longest block, recurse on the parts to its left and to its right
(`difflib.SequenceMatcher.get_matching_blocks`).  The recursion consumes at
least one character of `a` at every step, so it is presented with an
explicit step budget (`fuel`) to keep it structural; `matchTotalGo_fuel_eq`
below shows any budget of at least `a.length` computes the same value. -/
def matchTotalGo : Nat → List Char → List Char → Nat
  | 0, _, _ => 0
  | fuel + 1, a, b =>
    if (findLongestMatch a b).2.2 = 0 then 0
    else
      matchTotalGo fuel (a.take (findLongestMatch a b).1)
          (b.take (findLongestMatch a b).2.1) +
        (findLongestMatch a b).2.2 +
        matchTotalGo fuel
          (a.drop ((findLongestMatch a b).1 + (findLongestMatch a b).2.2))
          (b.drop ((findLongestMatch a b).2.1 + (findLongestMatch a b).2.2))

/-- Modelled from the spec: the total matched size `M` for two strings. -/
def matchTotal (a b : List Char) : Nat :=
  matchTotalGo a.length a b

/-- Modelled from the spec: `difflib.SequenceMatcher(None, a, b).ratio()`,
the Ratcliff/Obershelp similarity `2*M/T` with `T = len(a) + len(b)`, and
`1.0` when both strings are empty. -/
def seqRatio (a b : String) : ℚ :=
  if a.data.length + b.data.length = 0 then 1
  else mkRat (2 * matchTotal a.data b.data) (a.data.length + b.data.length)

/-- `class FuzzyMatch(NamedTuple): ratio: float; value: str`. -/
structure FuzzyMatch where
  ratio : ℚ
  value : String
deriving DecidableEq

/-- The order Python uses on `FuzzyMatch` named tuples: componentwise
lexicographic comparison, `ratio` first, then `value` (code-point
lexicographic on strings).  `matchGe x y` says `x` is the pair that
`sorted(..., reverse=True)` places first. -/
def matchGe (x y : FuzzyMatch) : Prop :=
  y.ratio < x.ratio ∨ (y.ratio = x.ratio ∧ y.value ≤ x.value)

instance : DecidableRel matchGe := fun x y =>
  inferInstanceAs
    (Decidable (y.ratio < x.ratio ∨ (y.ratio = x.ratio ∧ y.value ≤ x.value)))

instance : IsTotal FuzzyMatch matchGe where
  total x y := by
    unfold matchGe
    rcases lt_trichotomy x.ratio y.ratio with h | h | h
    · exact Or.inr (Or.inl h)
    · rcases le_total x.value y.value with hv | hv
      · exact Or.inr (Or.inr ⟨h, hv⟩)
      · exact Or.inl (Or.inr ⟨h.symm, hv⟩)
    · exact Or.inl (Or.inl h)

instance : IsTrans FuzzyMatch matchGe where
  trans a b c hab hbc := by
    unfold matchGe at *
    rcases hab with h1 | ⟨h1, hv1⟩ <;> rcases hbc with h2 | ⟨h2, hv2⟩
    · exact Or.inl (h2.trans h1)
    · exact Or.inl (h2 ▸ h1)
    · exact Or.inl (h1 ▸ h2)
    · exact Or.inr ⟨h2.trans h1, hv2.trans hv1⟩

/-- `fuzzymatch_iter(haystack, needle, *, min_ratio=0.6)`: for each key of
the haystack, score it against the needle and yield a `FuzzyMatch` when the
ratio clears `min_ratio`. -/
def fuzzymatch_iter (haystack : List String) (needle : String)
    (min_ratio : ℚ) : List FuzzyMatch :=
  haystack.filterMap fun key =>
    let ratio := seqRatio needle key
    if min_ratio ≤ ratio then some ⟨ratio, key⟩ else none

/-- `fuzzymatch(haystack, needle, *, min_ratio=0.6)`: the values of
`fuzzymatch_iter`, in the same order. -/
def fuzzymatch (haystack : List String) (needle : String)
    (min_ratio : ℚ) : List String :=
  (fuzzymatch_iter haystack needle min_ratio).map fun m => m.value

/-- `fuzzymatch_best`: sort the matches descending (Python
`sorted(..., reverse=True)` on the named tuples, a stable descending sort)
and return the first value; the `IndexError` on an empty list becomes
`none`. -/
def fuzzymatch_best (haystack : List String) (needle : String)
    (min_ratio : ℚ) : Option String :=
  match List.insertionSort matchGe (fuzzymatch_iter haystack needle min_ratio) with
  | [] => none
  | m :: _ => some m.value

/-- Python `fmt.format(alt=sub)` for the templates used here: every
occurrence of the placeholder `\x7balt\x7d` is replaced by `sub`. -/
def replaceAlt : List Char → List Char → List Char
  | [], _ => []
  | '\x7b' :: 'a' :: 'l' :: 't' :: '\x7d' :: rest, sub => sub ++ replaceAlt rest sub
  | c :: rest, sub => c :: replaceAlt rest sub

/-- `fuzzymatch_choices(haystack, needle, *, fmt_many, fmt_one, fmt_none,
min_ratio)`: materialize `fuzzymatch`, return `fmt_none` when empty,
otherwise format the comma-joined candidates into `fmt_many`/`fmt_one`. -/
def fuzzymatch_choices (haystack : List String) (needle : String)
    (fmt_many fmt_one fmt_none : String) (min_ratio : ℚ) : String :=
  let alt := fuzzymatch haystack needle min_ratio
  if alt = [] then fmt_none
  else
    String.mk (replaceAlt (if 1 < alt.length then fmt_many else fmt_one).data
      (String.intercalate ", " alt).data)

/-- `didyoumean`: `fuzzymatch_choices` on the materialized haystack. -/
def didyoumean (haystack : List String) (needle : String)
    (fmt_many fmt_one fmt_none : String) (min_ratio : ℚ) : String :=
  fuzzymatch_choices haystack needle fmt_many fmt_one fmt_none min_ratio

/-- Python `str.capitalize()`: first character upper-cased, the rest
lower-cased (ASCII inputs). -/
def pyCapitalize : List Char → List Char
  | [] => []
  | c :: rest => c.toUpper :: rest.map Char.toLower

/-- Python `s.replace(old, new)` where `old` is a single character and
`new` an arbitrary string (the two uses in `title`). -/
def pyReplaceChar (s : List Char) (old : Char) (new : List Char) : List Char :=
  s.flatMap fun c => if c = old then new else [c]

/-- Python `str.split()` (no argument): split on runs of spaces, dropping
empty fields; `cur` holds the characters of the current word, reversed. -/
def pySplitWsGo (cur : List Char) : List Char → List (List Char)
  | [] => if cur = [] then [] else [cur.reverse]
  | c :: rest =>
    if c = ' ' then
      if cur = [] then pySplitWsGo [] rest
      else cur.reverse :: pySplitWsGo [] rest
    else pySplitWsGo (c :: cur) rest

/-- Python `str.split()` (no argument). -/
def pySplitWs (s : List Char) : List (List Char) :=
  pySplitWsGo [] s

/-- `title(s)`: `' '.join(p.capitalize() for p in
s.replace('-', ' ').replace('_', '').split())` — note the source replaces
underscores with the EMPTY string. -/
def title (s : String) : String :=
  String.mk (List.intercalate [' ']
    ((pySplitWs (pyReplaceChar (pyReplaceChar s.data '-' [' ']) '_' [])).map
      pyCapitalize))

/-- Python slice `s[:k]` for an arbitrary (possibly negative) `k`. -/
def pySliceTo (s : List Char) (k : ℤ) : List Char :=
  if 0 ≤ k then s.take k.toNat else s.take ((s.length : ℤ) + k).toNat

/-- Python `s.rsplit(' ', 1)[0]`: everything before the last space, or the
whole string when it has no space. -/
def pyRsplit1Head (s : List Char) : List Char :=
  match go s.reverse with
  | none => s
  | some r => r.reverse
where
  /-- Drop characters of the reversed string up to and including the first
  space; `none` when there is no space. -/
  go : List Char → Option (List Char)
    | [] => none
    | c :: rest => if c = ' ' then some rest else go rest

/-- `_abbr_word_boundary(s, max, suffix)`:
`suffix and (s[:max - len(suffix)] + suffix) or s[:max]` under
`len(s) > max`, else `s` unchanged. -/
def _abbr_word_boundary (s : String) (max : ℤ) (suffix : String) : String :=
  if max < (s.data.length : ℤ) then
    (if suffix ≠ "" then
      String.mk (pySliceTo s.data (max - suffix.data.length) ++ suffix.data)
    else String.mk (pySliceTo s.data max))
  else s

/-- `_abbr_abrupt(s, max, suffix)`: when `max` is truthy (non-zero) and
`len(s) >= max`, return `s[:max].rsplit(' ', 1)[0] + suffix`, else `s`
(the debug `print` has no value-level effect and is not modelled). -/
def _abbr_abrupt (s : String) (max : ℤ) (suffix : String) : String :=
  if max ≠ 0 ∧ (max ≤ (s.data.length : ℤ)) then
    String.mk (pyRsplit1Head (pySliceTo s.data max) ++ suffix.data)
  else s

/-- `abbr(s, max, suffix='...', words=False)`. -/
def abbr (s : String) (max : ℤ) (suffix : String) (words : Bool) : String :=
  if words then _abbr_word_boundary s max suffix
  else _abbr_abrupt s max suffix

/-! ### Lemmas about the scorer -/

theorem extLen_le_left (a b : List Char) : extLen a b ≤ a.length := by
  induction a generalizing b with
  | nil => simp [extLen]
  | cons x xs ih =>
    cases b with
    | nil => simp [extLen]
    | cons y ys =>
      simp only [extLen, List.length_cons]
      split
      · exact Nat.succ_le_succ (ih ys)
      · exact Nat.zero_le _

theorem extLen_le_right (a b : List Char) : extLen a b ≤ b.length := by
  induction a generalizing b with
  | nil => simp [extLen]
  | cons x xs ih =>
    cases b with
    | nil => simp [extLen]
    | cons y ys =>
      simp only [extLen, List.length_cons]
      split
      · exact Nat.succ_le_succ (ih ys)
      · exact Nat.zero_le _

theorem extLen_refl (a : List Char) : extLen a a = a.length := by
  induction a with
  | nil => simp [extLen]
  | cons x xs ih => simp [extLen, ih]

theorem foldl_invariant {α β : Type} {P : β → Prop} {f : β → α → β}
    (hf : ∀ b a, P b → P (f b a)) :
    ∀ (l : List α) (b : β), P b → P (l.foldl f b) := by
  intro l
  induction l with
  | nil => intro b hb; simpa using hb
  | cons x xs ih =>
    intro b hb
    simpa using ih (f b x) (hf b x hb)

theorem foldl_fix {α β : Type} {f : β → α → β} {v : β}
    (hf : ∀ x, f v x = v) : ∀ l : List α, l.foldl f v = v := by
  intro l
  induction l with
  | nil => rfl
  | cons x xs ih => rw [List.foldl_cons, hf x, ih]

/-- The block reported by `findLongestMatch` lies inside both strings. -/
theorem findLongestMatch_le (a b : List Char) :
    (findLongestMatch a b).1 + (findLongestMatch a b).2.2 ≤ a.length ∧
      (findLongestMatch a b).2.1 + (findLongestMatch a b).2.2 ≤ b.length := by
  unfold findLongestMatch
  apply foldl_invariant
    (P := fun best : Nat × Nat × Nat =>
      best.1 + best.2.2 ≤ a.length ∧ best.2.1 + best.2.2 ≤ b.length)
  · intro best p hbest
    unfold flmStep
    split
    · rename_i hlt
      have hk : 0 < extLen (a.drop p.1) (b.drop p.2) :=
        Nat.lt_of_le_of_lt (Nat.zero_le _) hlt
      have hp1 : p.1 < a.length := by
        by_contra hge
        push_neg at hge
        rw [List.drop_eq_nil_of_le hge] at hk
        cases hb : b.drop p.2 <;> simp [extLen, hb] at hk
      have hp2 : p.2 < b.length := by
        by_contra hge
        push_neg at hge
        rw [List.drop_eq_nil_of_le hge] at hk
        cases ha : a.drop p.1 <;> simp [extLen, ha] at hk
      have h1 : extLen (a.drop p.1) (b.drop p.2) ≤ a.length - p.1 := by
        simpa using extLen_le_left (a.drop p.1) (b.drop p.2)
      have h2 : extLen (a.drop p.1) (b.drop p.2) ≤ b.length - p.2 := by
        simpa using extLen_le_right (a.drop p.1) (b.drop p.2)
      refine ⟨?_, ?_⟩
      · show p.1 + extLen (a.drop p.1) (b.drop p.2) ≤ a.length
        omega
      · show p.2 + extLen (a.drop p.1) (b.drop p.2) ≤ b.length
        omega
    · exact hbest
  · exact ⟨Nat.zero_le _, Nat.zero_le _⟩

theorem matchPairs_zero_left (lb : Nat) : matchPairs 0 lb = [] := by
  simp [matchPairs]

theorem matchPairs_zero_right (la : Nat) : matchPairs la 0 = [] := by
  simp [matchPairs]

theorem findLongestMatch_nil_left (b : List Char) :
    findLongestMatch [] b = (0, 0, 0) := by
  unfold findLongestMatch
  rw [show ([] : List Char).length = 0 from rfl, matchPairs_zero_left]
  rfl

theorem findLongestMatch_nil_right (a : List Char) :
    findLongestMatch a [] = (0, 0, 0) := by
  unfold findLongestMatch
  rw [show ([] : List Char).length = 0 from rfl, matchPairs_zero_right]
  rfl

theorem matchTotalGo_nil_left (fuel : Nat) (b : List Char) :
    matchTotalGo fuel [] b = 0 := by
  cases fuel with
  | zero => rfl
  | succ n => simp [matchTotalGo, findLongestMatch_nil_left]

theorem matchTotalGo_nil_right (fuel : Nat) (a : List Char) :
    matchTotalGo fuel a [] = 0 := by
  cases fuel with
  | zero => rfl
  | succ n => simp [matchTotalGo, findLongestMatch_nil_right]

/-- Any fuel of at least `a.length` computes the same total: the budget in
`matchTotal` is sufficient. -/
theorem matchTotalGo_fuel_eq :
    ∀ (f₁ f₂ : Nat) (a b : List Char), a.length ≤ f₁ → a.length ≤ f₂ →
      matchTotalGo f₁ a b = matchTotalGo f₂ a b := by
  intro f₁
  induction f₁ with
  | zero =>
    intro f₂ a b h1 _
    have ha : a = [] := List.length_eq_zero.mp (Nat.le_zero.mp h1)
    rw [ha, matchTotalGo_nil_left, matchTotalGo_nil_left]
  | succ n ih =>
    intro f₂ a b h1 h2
    cases f₂ with
    | zero =>
      have ha : a = [] := List.length_eq_zero.mp (Nat.le_zero.mp h2)
      rw [ha, matchTotalGo_nil_left, matchTotalGo_nil_left]
    | succ m =>
      obtain ⟨hia, hjb⟩ := findLongestMatch_le a b
      by_cases hk : (findLongestMatch a b).2.2 = 0
      · simp [matchTotalGo, hk]
      · have hk1 : 1 ≤ (findLongestMatch a b).2.2 := Nat.one_le_iff_ne_zero.mpr hk
        have htake : (a.take (findLongestMatch a b).1).length ≤ n := by
          simp only [List.length_take]
          omega
        have htake' : (a.take (findLongestMatch a b).1).length ≤ m := by
          simp only [List.length_take]
          omega
        have hdrop :
            (a.drop ((findLongestMatch a b).1 + (findLongestMatch a b).2.2)).length ≤ n := by
          simp only [List.length_drop]
          omega
        have hdrop' :
            (a.drop ((findLongestMatch a b).1 + (findLongestMatch a b).2.2)).length ≤ m := by
          simp only [List.length_drop]
          omega
        simp only [matchTotalGo, hk, if_neg]
        rw [ih m _ _ htake htake', ih m _ _ hdrop hdrop']

theorem matchTotal_nil_left (b : List Char) : matchTotal [] b = 0 :=
  matchTotalGo_nil_left _ _

theorem matchTotal_nil_right (a : List Char) : matchTotal a [] = 0 :=
  matchTotalGo_nil_right _ _

/-- Once the best block is as long as `a`, no scanned pair improves on it. -/
theorem flmStep_fix (a b : List Char) (v : Nat × Nat × Nat)
    (hv : a.length ≤ v.2.2) (p : Nat × Nat) : flmStep a b v p = v := by
  unfold flmStep
  rw [if_neg]
  have h1 := extLen_le_left (a.drop p.1) (b.drop p.2)
  rw [List.length_drop] at h1
  omega

/-- On two equal non-empty strings the longest match is the whole string,
found at the very first scanned pair. -/
theorem findLongestMatch_refl (d : List Char) (hd : d ≠ []) :
    findLongestMatch d d = (0, 0, d.length) := by
  have hlen : 0 < d.length := List.length_pos.mpr hd
  obtain ⟨n, hn⟩ : ∃ n, d.length = n + 1 := ⟨d.length - 1, by omega⟩
  unfold findLongestMatch matchPairs
  rw [hn, List.range_succ_eq_map, List.flatMap_cons, List.map_cons,
    List.cons_append, List.foldl_cons]
  have hstep : flmStep d d (0, 0, 0) (0, 0) = (0, 0, n + 1) := by
    show (if (0 : Nat) < extLen (d.drop 0) (d.drop 0) then
        ((0 : Nat), (0 : Nat), extLen (d.drop 0) (d.drop 0))
      else ((0 : Nat), (0 : Nat), (0 : Nat))) = ((0 : Nat), (0 : Nat), n + 1)
    rw [List.drop_zero, extLen_refl, hn, if_pos (Nat.succ_pos n)]
  rw [hstep]
  exact foldl_fix (flmStep_fix d d (0, 0, n + 1) (by rw [hn])) _

theorem matchTotalGo_refl :
    ∀ (fuel : Nat) (d : List Char), d.length ≤ fuel →
      matchTotalGo fuel d d = d.length := by
  intro fuel
  induction fuel with
  | zero =>
    intro d hd
    have h0 : d = [] := List.length_eq_zero.mp (Nat.le_zero.mp hd)
    rw [h0, matchTotalGo_nil_left]
    rfl
  | succ n ih =>
    intro d hd
    rcases eq_or_ne d [] with hnil | hne
    · rw [hnil, matchTotalGo_nil_left]
      rfl
    · have hflm := findLongestMatch_refl d hne
      have hlen : 0 < d.length := List.length_pos.mpr hne
      simp only [matchTotalGo, hflm]
      rw [if_neg (by omega)]
      simp only [List.take_zero, Nat.zero_add, List.drop_length,
        matchTotalGo_nil_left]
      omega

theorem matchTotal_refl (d : List Char) : matchTotal d d = d.length :=
  matchTotalGo_refl d.length d le_rfl

theorem matchTotalGo_le :
    ∀ (fuel : Nat) (a b : List Char), a.length ≤ fuel →
      matchTotalGo fuel a b ≤ a.length ∧ matchTotalGo fuel a b ≤ b.length := by
  intro fuel
  induction fuel with
  | zero =>
    intro a b _
    exact ⟨Nat.zero_le _, Nat.zero_le _⟩
  | succ n ih =>
    intro a b ha
    obtain ⟨hia, hjb⟩ := findLongestMatch_le a b
    simp only [matchTotalGo]
    split
    · exact ⟨Nat.zero_le _, Nat.zero_le _⟩
    · rename_i hk
      have hk1 : 1 ≤ (findLongestMatch a b).2.2 := Nat.one_le_iff_ne_zero.mpr hk
      have hlt1 : (a.take (findLongestMatch a b).1).length ≤ n := by
        rw [List.length_take]
        omega
      obtain ⟨h1a, h1b⟩ := ih _ (b.take (findLongestMatch a b).2.1) hlt1
      have hlt2 :
          (a.drop ((findLongestMatch a b).1 + (findLongestMatch a b).2.2)).length ≤ n := by
        rw [List.length_drop]
        omega
      obtain ⟨h2a, h2b⟩ := ih _
        (b.drop ((findLongestMatch a b).2.1 + (findLongestMatch a b).2.2)) hlt2
      rw [List.length_take] at h1a h1b
      rw [List.length_drop] at h2a h2b
      constructor <;> omega

theorem matchTotal_le (a b : List Char) :
    matchTotal a b ≤ a.length ∧ matchTotal a b ≤ b.length :=
  matchTotalGo_le a.length a b le_rfl

/-! ### Lemmas about `seqRatio` -/

theorem seqRatio_le_one (a b : String) : seqRatio a b ≤ 1 := by
  unfold seqRatio
  split
  · exact le_refl 1
  · rename_i hT
    have hTpos : 0 < a.data.length + b.data.length := Nat.pos_of_ne_zero hT
    obtain ⟨hma, hmb⟩ := matchTotal_le a.data b.data
    rw [Rat.mkRat_eq_divInt, Rat.divInt_eq_div]
    rw [div_le_one (by exact_mod_cast hTpos)]
    exact_mod_cast
      (by omega : 2 * matchTotal a.data b.data ≤ a.data.length + b.data.length)

theorem data_eq_nil_iff {s : String} : s.data = [] ↔ s = "" := by
  constructor
  · intro h
    exact String.ext h
  · intro h
    rw [h]

theorem seqRatio_nil_right (a : String) (ha : a ≠ "") : seqRatio a "" = 0 := by
  have hd : a.data.length ≠ 0 := fun h0 =>
    ha (data_eq_nil_iff.mp (List.length_eq_zero.mp h0))
  unfold seqRatio
  rw [if_neg (by simpa using hd)]
  rw [show ("" : String).data = [] from rfl, matchTotal_nil_right]
  simp

theorem seqRatio_nil_left (a : String) (ha : a ≠ "") : seqRatio "" a = 0 := by
  have hd : a.data.length ≠ 0 := fun h0 =>
    ha (data_eq_nil_iff.mp (List.length_eq_zero.mp h0))
  unfold seqRatio
  rw [if_neg (by simpa using hd)]
  rw [show ("" : String).data = [] from rfl, matchTotal_nil_left]
  simp

/-! ### Lemmas about the match stream -/

theorem mem_fuzzymatch_iter {h : List String} {n : String} {r : ℚ}
    {x : FuzzyMatch} :
    x ∈ fuzzymatch_iter h n r ↔
      ∃ w ∈ h, r ≤ seqRatio n w ∧ x = ⟨seqRatio n w, w⟩ := by
  unfold fuzzymatch_iter
  rw [List.mem_filterMap]
  constructor
  · rintro ⟨a, ha, hfa⟩
    dsimp only at hfa
    split at hfa
    · rename_i hcond
      exact ⟨a, ha, hcond, (Option.some.inj hfa).symm⟩
    · cases hfa
  · rintro ⟨w, hw, hr, rfl⟩
    refine ⟨w, hw, ?_⟩
    dsimp only
    rw [if_pos hr]

theorem fuzzymatch_iter_eq (h : List String) (n : String) (r : ℚ) :
    fuzzymatch_iter h n r =
      (h.filter fun k => decide (r ≤ seqRatio n k)).map
        fun k => ⟨seqRatio n k, k⟩ := by
  induction h with
  | nil => rfl
  | cons x xs ih =>
    unfold fuzzymatch_iter at ih ⊢
    rw [List.filterMap_cons, List.filter_cons]
    by_cases hx : r ≤ seqRatio n x
    · simp [hx, ih]
    · simp [hx, ih]

theorem fuzzymatch_eq (h : List String) (n : String) (r : ℚ) :
    fuzzymatch h n r = h.filter fun k => decide (r ≤ seqRatio n k) := by
  unfold fuzzymatch
  rw [fuzzymatch_iter_eq, List.map_map]
  exact List.map_id'' (fun _ => rfl) _

theorem fuzzymatch_iter_eq_nil (h : List String) (n : String) (r : ℚ)
    (hall : ∀ w ∈ h, ¬ r ≤ seqRatio n w) : fuzzymatch_iter h n r = [] := by
  unfold fuzzymatch_iter
  rw [List.filterMap_eq_nil_iff]
  intro a ha
  dsimp only
  rw [if_neg (hall a ha)]

/-! ### Claims -/

/-- C1: whenever `fuzzymatch_best` returns a value `v`, then `v` is an
element of the haystack, its similarity ratio with the needle clears
`min_ratio`, no element of the haystack that clears `min_ratio` has a
strictly greater ratio, and among equal-ratio elements `v` is the lexically
largest; when no element clears `min_ratio` the result is `none`. -/
theorem fuzzymatch_best_spec (h : List String) (n : String) (r : ℚ) :
    (∀ v, fuzzymatch_best h n r = some v →
      v ∈ h ∧ r ≤ seqRatio n v ∧
      (∀ w ∈ h, r ≤ seqRatio n w → seqRatio n w ≤ seqRatio n v) ∧
      (∀ w ∈ h, r ≤ seqRatio n w → seqRatio n w = seqRatio n v → w ≤ v)) ∧
    ((∀ w ∈ h, ¬ r ≤ seqRatio n w) → fuzzymatch_best h n r = none) := by
  constructor
  · intro v hv
    unfold fuzzymatch_best at hv
    rcases hs : List.insertionSort matchGe (fuzzymatch_iter h n r) with _ | ⟨m, rest⟩
    · rw [hs] at hv
      cases hv
    · rw [hs] at hv
      have hmv : m.value = v := Option.some.inj hv
      have hmem : m ∈ fuzzymatch_iter h n r := by
        have hm : m ∈ List.insertionSort matchGe (fuzzymatch_iter h n r) := by
          rw [hs]
          exact List.mem_cons_self _ _
        exact ((List.perm_insertionSort matchGe _).mem_iff).mp hm
      obtain ⟨w, hw, hrw, hxw⟩ := mem_fuzzymatch_iter.mp hmem
      have hwv : w = v := by rw [← hmv, hxw]
      have hmratio : m.ratio = seqRatio n v := by rw [hxw, hwv]
      subst hwv
      have hsorted := List.sorted_insertionSort matchGe (fuzzymatch_iter h n r)
      rw [hs] at hsorted
      refine ⟨hw, hrw, ?_, ?_⟩
      · intro w' hw' hrw'
        have hx' : (⟨seqRatio n w', w'⟩ : FuzzyMatch) ∈
            List.insertionSort matchGe (fuzzymatch_iter h n r) :=
          ((List.perm_insertionSort matchGe _).mem_iff).mpr
            (mem_fuzzymatch_iter.mpr ⟨w', hw', hrw', rfl⟩)
        rw [hs] at hx'
        rcases List.mem_cons.mp hx' with heq | hmemrest
        · have : seqRatio n w' = m.ratio := congrArg FuzzyMatch.ratio heq
          rw [this, hmratio]
        · have hrel := (List.sorted_cons.mp hsorted).1 _ hmemrest
          unfold matchGe at hrel
          rcases hrel with hlt | ⟨heqr, _⟩
          · have hlt' : seqRatio n w' < m.ratio := hlt
            rw [hmratio] at hlt'
            exact le_of_lt hlt'
          · have heqr' : seqRatio n w' = m.ratio := heqr
            rw [heqr', hmratio]
      · intro w' hw' hrw' _
        have hx' : (⟨seqRatio n w', w'⟩ : FuzzyMatch) ∈
            List.insertionSort matchGe (fuzzymatch_iter h n r) :=
          ((List.perm_insertionSort matchGe _).mem_iff).mpr
            (mem_fuzzymatch_iter.mpr ⟨w', hw', hrw', rfl⟩)
        rw [hs] at hx'
        rcases List.mem_cons.mp hx' with heq | hmemrest
        · exact le_of_eq (congrArg FuzzyMatch.value heq |>.trans hmv)
        · have hrel := (List.sorted_cons.mp hsorted).1 _ hmemrest
          unfold matchGe at hrel
          rcases hrel with hlt | ⟨_, hvle⟩
          · rename_i heqratio
            have hlt' : seqRatio n w' < m.ratio := hlt
            rw [hmratio] at hlt'
            exact absurd heqratio (ne_of_lt hlt')
          · have hvle' : w' ≤ m.value := hvle
            rw [hmv] at hvle'
            exact hvle'
  · intro hall
    unfold fuzzymatch_best
    rw [fuzzymatch_iter_eq_nil h n r hall]
    rfl

set_option maxRecDepth 8000 in
/-- Witness for C1 at the spec's own scenario: among
`["apple", "apply", "orange"]` with needle `"aplpe"` and threshold `0.6`,
the best match is `"apple"`, and it satisfies every clause. -/
theorem fuzzymatch_best_spec_witness :
    "apple" ∈ ["apple", "apply", "orange"] ∧
      mkRat 3 5 ≤ seqRatio "aplpe" "apple" ∧
      (∀ w ∈ ["apple", "apply", "orange"],
        mkRat 3 5 ≤ seqRatio "aplpe" w →
          seqRatio "aplpe" w ≤ seqRatio "aplpe" "apple") ∧
      (∀ w ∈ ["apple", "apply", "orange"],
        mkRat 3 5 ≤ seqRatio "aplpe" w →
          seqRatio "aplpe" w = seqRatio "aplpe" "apple" → w ≤ "apple") :=
  (fuzzymatch_best_spec ["apple", "apply", "orange"] "aplpe" (mkRat 3 5)).1
    "apple" (by decide)

/-- C5: `fuzzymatch_iter` yields exactly the candidates whose similarity
ratio with the needle clears `min_ratio`, each paired with that ratio, in
haystack order (no sorting). -/
theorem fuzzymatch_iter_spec (h : List String) (n : String) (r : ℚ) :
    fuzzymatch_iter h n r =
      (h.filter fun k => decide (r ≤ seqRatio n k)).map
        fun k => ⟨seqRatio n k, k⟩ :=
  fuzzymatch_iter_eq h n r

/-- C2 (counterexample): the spec's scenario
`suggestion_phrase(["start", "stop"], "strt", 0.6, ...)` does NOT return
`"one of start, stop"` — `seqRatio "strt" "stop" = 1/2` fails the `0.6`
threshold, so only `"start"` survives. -/
theorem fuzzymatch_choices_scenario_ne :
    fuzzymatch_choices ["start", "stop"] "strt" "one of \x7balt\x7d"
      "\x7balt\x7d" "" (mkRat 3 5) ≠ "one of start, stop" := by
  decide

/-- C2 (amended): the candidates substituted for the placeholder are the
qualifying candidates in haystack encounter order — `fuzzymatch_choices`
performs no sort — and on the spec's scenario only `"start"` clears the
`0.6` threshold, so the result is `"start"`. -/
theorem fuzzymatch_choices_unsorted :
    (∀ (h : List String) (n : String) (fm fo fn : String) (r : ℚ),
      fuzzymatch_choices h n fm fo fn r =
        if h.filter (fun k => decide (r ≤ seqRatio n k)) = [] then fn
        else String.mk (replaceAlt
          (if 1 < (h.filter fun k => decide (r ≤ seqRatio n k)).length
            then fm else fo).data
          (String.intercalate ", "
            (h.filter fun k => decide (r ≤ seqRatio n k))).data)) ∧
    fuzzymatch_choices ["start", "stop"] "strt" "one of \x7balt\x7d"
      "\x7balt\x7d" "" (mkRat 3 5) = "start" := by
  constructor
  · intro h n fm fo fn r
    simp only [fuzzymatch_choices]
    rw [fuzzymatch_eq]
  · decide

/-- C3: the similarity ratio of every string with itself is `1.0`. -/
theorem seqRatio_self_one (s : String) : seqRatio s s = 1 := by
  unfold seqRatio
  split
  · rfl
  · rename_i hT
    rw [matchTotal_refl, Rat.mkRat_eq_divInt, Rat.divInt_eq_div]
    rw [div_eq_one_iff_eq (by exact_mod_cast hT)]
    exact_mod_cast two_mul s.data.length

/-- C4 (counterexample): the similarity ratio is not symmetric — the greedy
longest-block recursion picks direction-dependent blocks on ties:
`seqRatio "aba" "babba" = 3/4` but `seqRatio "babba" "aba" = 1/2`. -/
theorem seqRatio_not_symm :
    seqRatio "aba" "babba" ≠ seqRatio "babba" "aba" := by
  decide

/-- C4 (amended): the similarity ratio is symmetric when the two strings
are equal or either of them is empty; in general scoring `(a, b)` and
`(b, a)` may differ. -/
theorem seqRatio_symm_special (a b : String) (hab : a = b ∨ a = "" ∨ b = "") :
    seqRatio a b = seqRatio b a := by
  rcases hab with rfl | rfl | rfl
  · rfl
  · by_cases hb : b = ""
    · rw [hb]
    · rw [seqRatio_nil_left b hb, seqRatio_nil_right b hb]
  · by_cases ha : a = ""
    · rw [ha]
    · rw [seqRatio_nil_right a ha, seqRatio_nil_left a ha]

/-- Witness for the amended C4: symmetry at an empty first string. -/
theorem seqRatio_symm_special_witness : seqRatio "" "xy" = seqRatio "xy" "" :=
  seqRatio_symm_special "" "xy" (Or.inr (Or.inl rfl))

/-- C6: two empty strings score `1.0`; a non-empty string against the empty
string scores `0.0` (in either argument order). -/
theorem seqRatio_empty_cases :
    seqRatio "" "" = 1 ∧
      ∀ a : String, a ≠ "" → seqRatio a "" = 0 ∧ seqRatio "" a = 0 :=
  ⟨by decide, fun a ha => ⟨seqRatio_nil_right a ha, seqRatio_nil_left a ha⟩⟩

/-- Witness for C6 at `a = "x"`. -/
theorem seqRatio_empty_cases_witness :
    seqRatio "" "" = 1 ∧ (seqRatio "x" "" = 0 ∧ seqRatio "" "x" = 0) :=
  ⟨seqRatio_empty_cases.1, seqRatio_empty_cases.2 "x" (by decide)⟩

/-- C7 (code evaluated at the failing input): `title` deletes underscores
instead of treating them as separators — `s.replace('_', '')` — so
`title "foo-bar_baz"` is `"Foo Barbaz"`, not the spec's `"Foo Bar Baz"`. -/
theorem title_underscore_merges_words : title "foo-bar_baz" = "Foo Barbaz" := by
  decide

/-- C8 (code evaluated at the failing input): with `words=True`, `abbr`
slices blindly at `max - len(suffix)` with no word-boundary handling:
`abbr "abcde fg" 7 "..." words=True = "abcd..."`, cutting the word
`"abcde"` in the middle, contradicting the function's own comment that no
partial word is kept. -/
theorem abbr_word_boundary_cuts_mid_word :
    abbr "abcde fg" 7 "..." true = "abcd..." ∧
      ("abcd..." : String).length < ("abcde fg" : String).length := by
  constructor <;> decide

/-- C9 (counterexample): an empty needle does not force empty results — an
empty candidate scores `1.0` against the empty needle, so with the default
`0.6` threshold `fuzzymatch` and `fuzzymatch_best` still produce matches. -/
theorem fuzzymatch_empty_needle_matches :
    fuzzymatch [""] "" (mkRat 3 5) ≠ [] ∧
      fuzzymatch_best [""] "" (mkRat 3 5) ≠ none := by
  constructor <;> decide

/-- C9 (amended): the matching operations are total functions (no
exceptions to model), and with an empty haystack, or with a threshold above
`1.0` (which no ratio can reach), `fuzzymatch_iter` and `fuzzymatch` are
empty, `fuzzymatch_best` is `none`, and `fuzzymatch_choices`/`didyoumean`
return `fmt_none`. -/
theorem fuzzymatch_degenerate :
    (∀ (n : String) (fm fo fn : String) (r : ℚ),
      fuzzymatch_iter [] n r = [] ∧ fuzzymatch [] n r = [] ∧
      fuzzymatch_best [] n r = none ∧
      fuzzymatch_choices [] n fm fo fn r = fn ∧
      didyoumean [] n fm fo fn r = fn) ∧
    (∀ (h : List String) (n : String) (fm fo fn : String) (r : ℚ), 1 < r →
      fuzzymatch_iter h n r = [] ∧ fuzzymatch h n r = [] ∧
      fuzzymatch_best h n r = none ∧
      fuzzymatch_choices h n fm fo fn r = fn ∧
      didyoumean h n fm fo fn r = fn) := by
  constructor
  · intro n fm fo fn r
    exact ⟨rfl, rfl, rfl, rfl, rfl⟩
  · intro h n fm fo fn r hr
    have hempty : fuzzymatch_iter h n r = [] :=
      fuzzymatch_iter_eq_nil h n r fun w _ =>
        not_le.mpr (lt_of_le_of_lt (seqRatio_le_one n w) hr)
    have hfm : fuzzymatch h n r = [] := by
      unfold fuzzymatch
      rw [hempty]
      rfl
    refine ⟨hempty, hfm, ?_, ?_, ?_⟩
    · unfold fuzzymatch_best
      rw [hempty]
      rfl
    · simp only [fuzzymatch_choices]
      rw [hfm]
      rfl
    · unfold didyoumean
      simp only [fuzzymatch_choices]
      rw [hfm]
      rfl

/-- Witness for the amended C9 with haystack `["ab"]`, needle `"b"` and the
unreachable threshold `2`. -/
theorem fuzzymatch_degenerate_witness :
    fuzzymatch_iter ["ab"] "b" (mkRat 2 1) = [] ∧
      fuzzymatch ["ab"] "b" (mkRat 2 1) = [] ∧
      fuzzymatch_best ["ab"] "b" (mkRat 2 1) = none ∧
      fuzzymatch_choices ["ab"] "b" "m" "o" "NONE" (mkRat 2 1) = "NONE" ∧
      didyoumean ["ab"] "b" "m" "o" "NONE" (mkRat 2 1) = "NONE" :=
  fuzzymatch_degenerate.2 ["ab"] "b" "m" "o" "NONE" (mkRat 2 1) (by decide)

/-- C10: with `words=False` a limit of `0` is falsy in
`if max and len(s) >= max`, so `abbr` returns the string unchanged — `0`
means "no limit", not "truncate to nothing". -/
theorem abbr_zero_no_limit (s suffix : String) : abbr s 0 suffix false = s := by
  unfold abbr _abbr_abrupt
  simp

end FaustText
